import Mathlib

/-!
Verification of the reactive state core of the `orbital_platform` repository
(extension `omni.earth_2_command_center.app.core`).

The development shallowly embeds the Python source:

* `timestamped_sequence.py` (`SortedList`, the "TimeIndexedSequence"):
  timestamps (`datetime`) are modelled as rationals (seconds), the stored
  values are a type parameter.  The binary-search `while` loop is modelled by
  a structurally recursive function with a fuel argument; the fuel used by
  the wrappers (`e - s` at loop entry, bounded by the list length) dominates
  the number of iterations, so the model computes exactly the loop's result.
* `features/feature.py`, `features_api.py` (`Feature`, `FeaturesAPI`):
  Python attribute values are modelled by the inductive `PyVal`, a feature's
  mutable instance attributes by an association list keyed by property name
  (the Python code prepends `_` to form the internal attribute name; the
  model drops the underscore).  The carb event stream is modelled as the
  list of events pushed (push is immediately followed by pump, so the
  stream's delivery order is the push order).
* `time_manager.py` (`TimeManager`): `datetime` instants and `timedelta`
  durations are modelled as rationals (seconds since the Unix epoch /
  seconds); the external `omni.timeline` transport clock is inlined as the
  `timeline_*` fields that the code reads and writes through it.

Python behaviours that matter here and are modelled explicitly: `list.insert`
clamps out-of-range positions, `list.index`/`list.remove` raise `ValueError`
on a missing element (modelled with `Option`), negative list indices count
from the end, `dict` equality is order-insensitive, and `type(x) == T` is an
exact type test (subclasses fail it).
-/

namespace OrbitalCore

/-! ## SortedList (timestamped_sequence.py) -/

/-- An entry of the sequence: a `(timestamp, value)` pair
(`SortedList._list : list[tuple[datetime, Any]]`). -/
abbrev Entry (α : Type) := ℚ × α

/-- The sequence is sorted ascending by timestamp (the invariant `insert`
maintains; duplicate timestamps are permitted). -/
abbrev SortedByTime {α : Type} (l : List (Entry α)) : Prop :=
  l.Pairwise (fun a b => a.1 ≤ b.1)

/-- Timestamps are pairwise strictly increasing (no duplicate timestamps). -/
abbrev StrictlySortedByTime {α : Type} (l : List (Entry α)) : Prop :=
  l.Pairwise (fun a b => a.1 < b.1)

/-- Timestamp of the entry at index `i` (junk value `0` out of range). -/
def tsAt {α : Type} (l : List (Entry α)) (i : Nat) : ℚ :=
  ((l.map Prod.fst)[i]?).getD 0

/-- The `while end_idx - start_idx > 1` loop of
`SortedList.find_closest_smaller_equal`, as a fuel-indexed recursion.
Each iteration strictly shrinks `e - s`, so any `fuel ≥ e - s` reproduces
the loop exactly; the out-of-range `none` branch is unreachable for the
arguments the wrapper passes. -/
def fcseLoop {α : Type} (l : List (Entry α)) (t : ℚ) :
    Nat → Nat → Nat → Nat
  | 0, s, _ => s
  | fuel + 1, s, e =>
    if 1 < e - s then
      let mid := s + (e - s) / 2
      match l[mid]? with
      | none => s
      | some (tm, _) =>
        if t < tm then fcseLoop l t fuel s mid
        else if t = tm then mid
        else fcseLoop l t fuel mid e
    else s

/-- `SortedList.find_closest_smaller_equal`: `(None, None)` when the list is
empty or the query precedes the first entry, otherwise the binary search's
`(index, entry)`. -/
def find_closest_smaller_equal {α : Type} (l : List (Entry α)) (t : ℚ) :
    Option (Nat × Entry α) :=
  match l with
  | [] => none
  | (t0, _) :: _ =>
    if t < t0 then none
    else
      let idx := fcseLoop l t l.length 0 l.length
      (l[idx]?).map (fun e => (idx, e))

/-- Python `list.insert(pos, x)` for a non-negative position: positions past
the end append (`List.take` clamps exactly as Python does). -/
def pyInsertAt {α : Type} (l : List α) (pos : Nat) (x : α) : List α :=
  l.take pos ++ x :: l.drop pos

/-- `SortedList.insert`: insert right after the entry found by
`find_closest_smaller_equal`, or at index 0 when it returns `(None, None)`. -/
def SL.insert {α : Type} (l : List (Entry α)) (x : Entry α) : List (Entry α) :=
  match find_closest_smaller_equal l x.1 with
  | none => x :: l
  | some (idx, _) => pyInsertAt l (idx + 1) x

/-- `SortedList.find_lerp_tuple`: `None` when empty; otherwise the
interpolation weight and the two bracketing entries, with the edge policies
of the source (`0.0` weight before the first entry, `idx1 = min(idx0+1,
len-1)`, and a `0.0` weight for a zero-duration bracket). -/
def find_lerp_tuple {α : Type} (l : List (Entry α)) (t : ℚ) :
    Option (ℚ × Entry α × Entry α) :=
  match l with
  | [] => none
  | first :: _ =>
    match find_closest_smaller_equal l t with
    | none => some (0, first, first)
    | some (idx0, (t0, e0)) =>
      let idx1 := min (idx0 + 1) (l.length - 1)
      if idx0 = idx1 then some (0, (t0, e0), (t0, e0))
      else
        match l[idx1]? with
        | none => some (0, (t0, e0), (t0, e0))
        | some (t1, e1) =>
          let w := if t1 - t0 = 0 then 0 else (t - t0) / (t1 - t0)
          some (w, (t0, e0), (t1, e1))

/-! ## Python attribute values (features/feature.py) -/

/-- A Python value as stored in the mutable attributes of a `Feature`:
strings, booleans, floats, `None`, 2-tuples of datetimes (`time_coverage`),
string-keyed dicts with float values (`meta`, `remapping`), lists of strings
(`sources`, `alpha_sources`), and 1-D numpy float arrays (`points`, ...).
Datetimes and floats are rationals. -/
inductive PyVal : Type where
  | pyStr (s : String)
  | pyBool (b : Bool)
  | pyFloat (q : ℚ)
  | pyNone
  | pyInterval (a b : ℚ)
  | pyDict (entries : List (String × ℚ))
  | pyStrList (xs : List String)
  | pyNdarray (xs : List ℚ)
deriving DecidableEq, Repr

/-- The Python runtime type of a value (`type(x)`): each constructor is a
distinct Python type. -/
def PyVal.tag : PyVal → Nat
  | .pyStr _ => 0
  | .pyBool _ => 1
  | .pyFloat _ => 2
  | .pyNone => 3
  | .pyInterval _ _ => 4
  | .pyDict _ => 5
  | .pyStrList _ => 6
  | .pyNdarray _ => 7

def dictLookup (d : List (String × ℚ)) (k : String) : Option ℚ :=
  (d.find? (fun kv => kv.1 == k)).map (fun kv => kv.2)

/-- Python `dict` equality: order-insensitive key/value agreement. -/
def dictEqB (d1 d2 : List (String × ℚ)) : Bool :=
  d1.all (fun kv => dictLookup d2 kv.1 == some kv.2)
    && d2.all (fun kv => dictLookup d1 kv.1 == some kv.2)

/-- Python `==` on same-typed values. The property funnel only reaches this
after the `type(...)` check, and never for ndarrays (those take the
`isinstance` branch). -/
def pyEqB : PyVal → PyVal → Bool
  | .pyStr a, .pyStr b => a == b
  | .pyBool a, .pyBool b => a == b
  | .pyFloat a, .pyFloat b => a == b
  | .pyNone, .pyNone => true
  | .pyInterval a b, .pyInterval c d => a == c && b == d
  | .pyDict a, .pyDict b => dictEqB a b
  | .pyStrList a, .pyStrList b => a == b
  | .pyNdarray a, .pyNdarray b => a == b
  | _, _ => false

/-- numpy 1-D `x != y` followed by `.any()`, with broadcasting: defined for
equal lengths or a length-1 operand; `none` models the `ValueError` numpy
raises on incompatible shapes (not caught by the funnel). -/
def ndarrayAnyNe (a b : List ℚ) : Option Bool :=
  if a.length = b.length then some ((a.zip b).any fun p => p.1 != p.2)
  else if a.length = 1 then some (b.any fun x => decide (x ≠ a.headD 0))
  else if b.length = 1 then some (a.any fun x => decide (x ≠ b.headD 0))
  else none

/-- The change test of `Feature._property_change`: a type mismatch counts as
a change; same-typed ndarrays compare element-wise through `.any()`;
everything else through Python `!=`. `none` models an uncaught numpy shape
error. -/
def propertyDiffers (cur new : PyVal) : Option Bool :=
  if cur.tag ≠ new.tag then some true
  else
    match cur, new with
    | .pyNdarray a, .pyNdarray b => ndarrayAnyNe a b
    | _, _ => some (!pyEqB cur new)

/-! ## Feature and FeaturesAPI (features/feature.py, features_api.py) -/

/-- The `FeatureChange` tags: `{name, id}` dicts in the source. -/
def FeatureChange.FEATURE_ADD : String × Int := ("FeatureAdd", 1)

def FeatureChange.FEATURE_REMOVE : String × Int := ("FeatureRemove", 2)

def FeatureChange.FEATURE_CLEAR : String × Int := ("FeatureClear", 3)

def FeatureChange.FEATURE_REORDER : String × Int := ("FeatureReorder", 4)

def FeatureChange.PROPERTY_CHANGE : String × Int := ("PropertyChange", 5)

/-- A feature record: the immutable `_id` and `feature_type`, the mutable
attributes as an association list keyed by property name (the source stores
them under a leading underscore; the model drops it), and whether `_api`
holds a back-reference to the owning store. -/
structure Feature where
  id : Int
  feature_type : String
  fields : List (String × PyVal)
  api_bound : Bool
deriving DecidableEq, Repr

/-- The base mutable attributes installed by `Feature.__init__`. -/
def featureBaseFields : List (String × PyVal) :=
  [("name", .pyStr "unnamed"), ("active", .pyBool true),
   ("time_coverage", .pyNone), ("meta", .pyDict [])]

/-- Payload shapes of the store's events. -/
inductive EventPayload : Type where
  | clearP (change : String × Int)
  | featureP (feature_type : String) (id : Int) (change : String × Int)
  | propertyP (feature_type : String) (id : Int) (change : String × Int)
      (property : String) (old_value new_value : PyVal)
  | reorderP (change : String × Int) (permutation : List Int)
deriving DecidableEq, Repr

/-- An event pushed (and immediately pumped) on the store's event stream. -/
structure StoreEvent where
  event_type : Int
  sender : Int
  payload : EventPayload
deriving DecidableEq, Repr

/-- The feature store: `_feature_id_counter`, the ordered `_feature_list`,
and the event stream modelled as the list of delivered events. -/
structure FeaturesAPI where
  feature_id_counter : Int
  feature_list : List Feature
  events : List StoreEvent
deriving DecidableEq, Repr

/-- `get_features` (the source returns a copy; the model's lists are
immutable already). -/
def FeaturesAPI.get_features (s : FeaturesAPI) : List Feature :=
  s.feature_list

/-- `get_feature_by_id`: first listed feature with the given id. -/
def FeaturesAPI.get_feature_by_id (s : FeaturesAPI) (i : Int) : Option Feature :=
  s.feature_list.find? (fun f => f.id == i)

/-- `get_feature_pos`: `list.index`, with `ValueError` turned into `None`. -/
def FeaturesAPI.get_feature_pos (s : FeaturesAPI) (f : Feature) : Option Nat :=
  s.feature_list.findIdx? (fun g => g == f)

/-- `get_num_features`. -/
def FeaturesAPI.get_num_features (s : FeaturesAPI) : Nat :=
  s.feature_list.length

/-- `FeaturesAPI.register_change`: unless forced, the event is suppressed
when the payload's feature id is not currently listed; otherwise one event is
pushed and pumped. Returns the list of events appended to the stream
(`payload_id` is the payload's `id` entry; the modelled call sites always
pass a payload). -/
def FeaturesAPI.register_change (s : FeaturesAPI) (event_type : Int)
    (sender_id : Int) (payload : EventPayload) (payload_id : Int)
    (force_send : Bool) : List StoreEvent :=
  if !force_send && (s.get_feature_by_id payload_id).isNone then []
  else [⟨event_type, sender_id, payload⟩]

/-- Python `getattr(f, "_" + p)`: `none` is an `AttributeError`. -/
def Feature.getattr (f : Feature) (p : String) : Option PyVal :=
  (f.fields.find? (fun kv => kv.1 == p)).map (fun kv => kv.2)

/-- Python `setattr(f, "_" + p, v)` for an existing attribute. -/
def Feature.setattr (f : Feature) (p : String) (v : PyVal) : Feature :=
  { f with fields := f.fields.map (fun kv => if kv.1 == p then (kv.1, v) else kv) }

/-- `Feature._property_change`: read the current value, decide change with
the array-aware test; on change write the field and produce the payload
`(property_name, old_value, new_value)`. `none` models an uncaught exception
(missing attribute or numpy shape error). -/
def Feature.property_change (f : Feature) (p : String) (v : PyVal) :
    Option (Feature × Option (String × PyVal × PyVal)) :=
  match f.getattr p with
  | none => none
  | some cur =>
    match propertyDiffers cur v with
    | none => none
    | some false => some (f, none)
    | some true => some (f.setattr p v, some (p, cur, v))

/-- `Feature._register_change` for a PropertyChange event: build the payload
`{feature_type, id, change} | {property, old_value, new_value}` and route it
through `FeaturesAPI.register_change` when `_api` is bound. -/
def Feature.register_property_change (f : Feature) (s : FeaturesAPI)
    (pc : String × PyVal × PyVal) : List StoreEvent :=
  if f.api_bound then
    s.register_change FeatureChange.PROPERTY_CHANGE.2 f.id
      (EventPayload.propertyP f.feature_type f.id FeatureChange.PROPERTY_CHANGE
        pc.1 pc.2.1 pc.2.2) f.id false
  else []

/-- Assigning a property (through its typed setter) of the feature at
position `i` of the store's list. The Python list aliases the feature
object, so the updated record is already visible at position `i` when
`register_change` checks the listing. -/
def FeaturesAPI.set_property (s : FeaturesAPI) (i : Nat) (p : String)
    (v : PyVal) : Option FeaturesAPI :=
  match s.feature_list[i]? with
  | none => none
  | some f =>
    match f.property_change p v with
    | none => none
    | some (f2, pc) =>
      let s2 : FeaturesAPI := { s with feature_list := s.feature_list.set i f2 }
      match pc with
      | none => some s2
      | some payload =>
        some { s2 with events := s2.events ++ f2.register_property_change s2 payload }

/-- Assigning a property of a feature that is not in the store's list
(e.g. freshly created by `create_feature` and not yet added). Returns the
updated store (event stream) and the updated feature. -/
def set_property_unlisted (s : FeaturesAPI) (f : Feature) (p : String)
    (v : PyVal) : Option (FeaturesAPI × Feature) :=
  match f.property_change p v with
  | none => none
  | some (f2, pc) =>
    match pc with
    | none => some (s, f2)
    | some payload =>
      some ({ s with events := s.events ++ f2.register_property_change s payload }, f2)

/-- `Feature.time_coverage_extend_to_include` on the feature at position
`i`: when `_time_coverage` is `None` the tuple is assigned directly to the
attribute — bypassing the property setter, so no event; otherwise the bounds
are widened (`min` of starts, `max` of ends, written with the source's
comparisons) and routed through the ordinary `time_coverage` setter. -/
def FeaturesAPI.time_coverage_extend_to_include (s : FeaturesAPI) (i : Nat)
    (start endt : ℚ) : Option FeaturesAPI :=
  match s.feature_list[i]? with
  | none => none
  | some f =>
    match f.getattr "time_coverage" with
    | some .pyNone =>
      some { s with feature_list :=
        s.feature_list.set i (f.setattr "time_coverage" (.pyInterval start endt)) }
    | some (.pyInterval a b) =>
      let start2 := if start > a then a else start
      let endt2 := if endt < b then b else endt
      s.set_property i "time_coverage" (.pyInterval start2 endt2)
    | _ => none

/-- `FeaturesAPI.clear`: empty the list and push-and-pump exactly one
store-scoped Clear event (sender 0); no per-feature Remove events. -/
def FeaturesAPI.clear (s : FeaturesAPI) : FeaturesAPI :=
  { s with feature_list := [],
           events := s.events ++ [⟨FeatureChange.FEATURE_CLEAR.2, 0,
             EventPayload.clearP FeatureChange.FEATURE_CLEAR⟩] }

/-- Python `list.insert(pos, x)` with an arbitrary integer position:
negative positions count from the end, out-of-range positions clamp. -/
def pyInsertInt {β : Type} (l : List β) (pos : Int) (x : β) : List β :=
  let n : Int := l.length
  let j : Int := if pos < 0 then max 0 (n + pos) else min pos n
  l.take j.toNat ++ x :: l.drop j.toNat

/-- Python `l[i]` with negative indices counting from the end; `none` is an
`IndexError`. -/
def pyGetInt {β : Type} (l : List β) (i : Int) : Option β :=
  let n : Int := l.length
  let j : Int := if i < 0 then i + n else i
  if 0 ≤ j ∧ j < n then l[j.toNat]? else none

/-- Argument to `reorder_features`: a permutation list, a feature→position
mapping (in dict iteration order), or a value of unsupported type. -/
inductive ReorderArg : Type where
  | plist (p : List Int)
  | pdict (m : List (Feature × Int))
  | unsupported

/-- Result of `reorder_features`: a normal return with the resulting store
(the logged-and-aborted error paths return the store unchanged), or an
exception escaping to the caller. -/
inductive ReorderOutcome : Type where
  | ok (s : FeaturesAPI)
  | raised (exn : String)
deriving DecidableEq

/-- The dict branch's loop over `permutation.items()`: `list.index`,
`list.remove`, `list.insert` on the working copies. `none` models a
`ValueError` (feature missing from the list, or index value missing). -/
def applyPosMap : List Feature → List Int → List (Feature × Int) →
    Option (List Feature × List Int)
  | permuted, plist, [] => some (permuted, plist)
  | permuted, plist, (f, pos) :: rest =>
    match permuted.findIdx? (fun g => g == f) with
    | none => none
    | some idx =>
      if (idx : Int) ∈ plist then
        applyPosMap (pyInsertInt (permuted.erase f) pos f)
          (pyInsertInt (plist.erase (idx : Int)) pos (idx : Int)) rest
      else none

/-- `FeaturesAPI.reorder_features`. A list argument is validated for length
and for duplicates (`len(set(...))`), logging and aborting on failure, and
the permuted list `[old[i] for i in permutation]` is built with Python
indexing (an out-of-range entry raises `IndexError`). A dict argument
repositions each named feature in turn; the `ValueError` of a missing
feature is caught, but the handler's log call references the misspelled
name `pemutation`, so the call raises `NameError` instead of logging. In
both branches a result equal to the current order mutates nothing and emits
nothing; otherwise the new order is installed and one Reorder event carrying
the permutation list is pushed. Unsupported types log and abort. -/
def FeaturesAPI.reorder_features (s : FeaturesAPI) (arg : ReorderArg) :
    ReorderOutcome :=
  match arg with
  | .plist p =>
    if p.length ≠ s.feature_list.length then .ok s
    else if p.dedup.length ≠ p.length then .ok s
    else
      match p.mapM (pyGetInt s.feature_list) with
      | none => .raised "IndexError"
      | some permuted =>
        if permuted ≠ s.feature_list then
          .ok { s with feature_list := permuted,
                       events := s.events ++ [⟨FeatureChange.FEATURE_REORDER.2, 0,
                         EventPayload.reorderP FeatureChange.FEATURE_REORDER p⟩] }
        else .ok s
  | .pdict m =>
    match applyPosMap s.feature_list
        ((List.range s.feature_list.length).map Int.ofNat) m with
    | none => .raised "NameError"
    | some (permuted, plist2) =>
      if permuted ≠ s.feature_list then
        .ok { s with feature_list := permuted,
                     events := s.events ++ [⟨FeatureChange.FEATURE_REORDER.2, 0,
                       EventPayload.reorderP FeatureChange.FEATURE_REORDER plist2⟩] }
      else .ok s
  | .unsupported => .ok s

/-- The inverse of a permutation list `p` of `0..n-1` (for the round-trip
property `new[i] = old[permutation[i]]`): entry `j` is the index of `j` in
`p`. -/
def invPerm (p : List Nat) : List Nat :=
  (List.range p.length).map (fun j => p.indexOf j)

/-! ## TimeManager (time_manager.py) -/

/-- The four typed change events of the time-sync bus (opaque carb
event-type hashes in the source; distinct codes here). -/
def UTC_START_TIME_CHANGED : Int := 0

def UTC_END_TIME_CHANGED : Int := 1

def UTC_PER_SECOND_CHANGED : Int := 2

def UTC_CURRENT_TIME_CHANGED : Int := 3

/-- TimeManager state: the UTC bounds (seconds since the Unix epoch), the
rate (UTC seconds per playback second), the external `omni.timeline`
transport clock's start/end/current time, and the utc event stream (list of
pushed codes). -/
structure TimeManager where
  utc_start_time : ℚ
  utc_end_time : ℚ
  utc_per_second : ℚ
  timeline_start_time : ℚ
  timeline_end_time : ℚ
  timeline_current_time : ℚ
  utc_events : List Int
deriving DecidableEq, Repr

/-- `playback_to_utc_time`: `utc_start + playback * utc_per_second`. -/
def TimeManager.playback_to_utc_time (tm : TimeManager) (p : ℚ) : ℚ :=
  tm.utc_start_time + p * tm.utc_per_second

/-- `utc_to_playback_time`: `(utc - utc_start) / utc_per_second`; the
`ZeroDivisionError` of a zero rate is caught, logged, and turned into
`0.0`. -/
def TimeManager.utc_to_playback_time (tm : TimeManager) (u : ℚ) : ℚ :=
  if tm.utc_per_second = 0 then 0 else (u - tm.utc_start_time) / tm.utc_per_second

/-- `playback_time` getter: the transport clock's current time. -/
def TimeManager.playback_time (tm : TimeManager) : ℚ :=
  tm.timeline_current_time

/-- `utc_time` getter: always derived from the transport clock through the
current mapping. -/
def TimeManager.utc_time (tm : TimeManager) : ℚ :=
  tm.playback_to_utc_time tm.playback_time

/-- `TimeManager._sync`: reprogram the timeline bounds and current time from
the UTC state and the captured UTC instant (`sync_stage` only touches the
USD stage, which is outside this core). -/
def TimeManager.sync (tm : TimeManager) (utc_current_time : ℚ) : TimeManager :=
  { tm with timeline_start_time := tm.utc_to_playback_time tm.utc_start_time,
            timeline_end_time := tm.utc_to_playback_time tm.utc_end_time,
            timeline_current_time := tm.utc_to_playback_time utc_current_time }

/-- An argument passed to a setter annotated `datetime`: a datetime instant
(`exact = true` iff `type(x) == datetime.datetime`; `false` for instances of
proper subclasses) or a value of some other type (string, `None`, number). -/
inductive PyDateTimeArg : Type where
  | dt (exact : Bool) (value : ℚ)
  | other (what : String)
deriving DecidableEq, Repr

/-- The `utc_start_time` setter: exact-type check, naive datetimes coerced
to UTC (identity here: instants are already absolute), no-op on an equal
value; otherwise capture the current UTC instant under the old mapping,
update the bound, re-sync, and push-and-pump one `UTC_START_TIME_CHANGED`. -/
def TimeManager.set_utc_start_time (tm : TimeManager) (arg : PyDateTimeArg) :
    TimeManager :=
  match arg with
  | .dt true v =>
    if tm.utc_start_time ≠ v then
      let cur := tm.utc_time
      let tm2 := { tm with utc_start_time := v }
      let tm3 := tm2.sync cur
      { tm3 with utc_events := tm3.utc_events ++ [UTC_START_TIME_CHANGED] }
    else tm
  | _ => tm

/-- The `utc_end_time` setter: same shape as the start setter. -/
def TimeManager.set_utc_end_time (tm : TimeManager) (arg : PyDateTimeArg) :
    TimeManager :=
  match arg with
  | .dt true v =>
    if tm.utc_end_time ≠ v then
      let cur := tm.utc_time
      let tm2 := { tm with utc_end_time := v }
      let tm3 := tm2.sync cur
      { tm3 with utc_events := tm3.utc_events ++ [UTC_END_TIME_CHANGED] }
    else tm
  | _ => tm

/-- The `utc_per_second` setter (no type check in the source). -/
def TimeManager.set_utc_per_second (tm : TimeManager) (v : ℚ) : TimeManager :=
  if tm.utc_per_second ≠ v then
    let cur := tm.utc_time
    let tm2 := { tm with utc_per_second := v }
    let tm3 := tm2.sync cur
    { tm3 with utc_events := tm3.utc_events ++ [UTC_PER_SECOND_CHANGED] }
  else tm

/-- The `utc_time` setter: convert to playback time under the current
mapping, write the transport clock, and push one `UTC_CURRENT_TIME_CHANGED`
only when the value actually differs. -/
def TimeManager.set_utc_time (tm : TimeManager) (v : ℚ) : TimeManager :=
  if v ≠ tm.utc_time then
    let tm2 := { tm with timeline_current_time := tm.utc_to_playback_time v }
    { tm2 with utc_events := tm2.utc_events ++ [UTC_CURRENT_TIME_CHANGED] }
  else tm

/-- The `__init__` state: 2025-10-01T00:00:00Z to 2025-10-01T23:59:00Z in
Unix seconds, 10 UTC seconds per playback second, synced to the start. -/
def TimeManager.init : TimeManager :=
  TimeManager.sync
    { utc_start_time := 1759276800, utc_end_time := 1759363140,
      utc_per_second := 10, timeline_start_time := 0, timeline_end_time := 0,
      timeline_current_time := 0, utc_events := [] } 1759276800

end OrbitalCore

namespace OrbitalCore

/-! ## Proofs about SortedList -/

theorem tsAt_eq {α : Type} {l : List (Entry α)} {i : Nat} {e : Entry α}
    (h : l[i]? = some e) : tsAt l i = e.1 := by
  simp [tsAt, List.getElem?_map, h]

theorem tsAt_cons_succ {α : Type} (a : Entry α) (l : List (Entry α)) (i : Nat) :
    tsAt (a :: l) (i + 1) = tsAt l i := by
  simp [tsAt]

theorem tsAt_cons_zero {α : Type} (a : Entry α) (l : List (Entry α)) :
    tsAt (a :: l) 0 = a.1 := by
  simp [tsAt]

theorem tsAt_mono {α : Type} {l : List (Entry α)} (hs : SortedByTime l)
    {i j : Nat} (hij : i ≤ j) (hj : j < l.length) : tsAt l i ≤ tsAt l j := by
  have hi : i < l.length := Nat.lt_of_le_of_lt hij hj
  rcases Nat.eq_or_lt_of_le hij with rfl | hlt
  · exact le_refl _
  · have h := List.pairwise_iff_getElem.mp hs i j hi hj hlt
    have h1 : tsAt l i = l[i].1 := tsAt_eq (List.getElem?_eq_getElem hi)
    have h2 : tsAt l j = l[j].1 := tsAt_eq (List.getElem?_eq_getElem hj)
    rw [h1, h2]
    exact h

theorem tsAt_strict_mono {α : Type} {l : List (Entry α)} (hs : StrictlySortedByTime l)
    {i j : Nat} (hij : i < j) (hj : j < l.length) : tsAt l i < tsAt l j := by
  have hi : i < l.length := Nat.lt_trans hij hj
  have h := List.pairwise_iff_getElem.mp hs i j hi hj hij
  have h1 : tsAt l i = l[i].1 := tsAt_eq (List.getElem?_eq_getElem hi)
  have h2 : tsAt l j = l[j].1 := tsAt_eq (List.getElem?_eq_getElem hj)
  rw [h1, h2]
  exact h

theorem fcseLoop_succ {α : Type} (l : List (Entry α)) (t : ℚ) (fuel s e : Nat) :
    fcseLoop l t (fuel + 1) s e =
      (if 1 < e - s then
        match l[s + (e - s) / 2]? with
        | none => s
        | some (tm, _) =>
          if t < tm then fcseLoop l t fuel s (s + (e - s) / 2)
          else if t = tm then s + (e - s) / 2
          else fcseLoop l t fuel (s + (e - s) / 2) e
      else s) := rfl

/-- Invariant of the binary-search loop: starting from a bracket
`[s, e)` whose left end is `≤ t` and beyond whose right end every timestamp
exceeds `t`, the loop lands inside the bracket on an index whose timestamp is
`≤ t`, and either it hit an exact timestamp match or everything to its right
exceeds `t`. -/
theorem fcseLoop_spec {α : Type} {l : List (Entry α)} (hs : SortedByTime l) (t : ℚ) :
    ∀ (fuel s e : Nat), e - s ≤ fuel → s < e → e ≤ l.length →
      tsAt l s ≤ t → (∀ j, e ≤ j → j < l.length → t < tsAt l j) →
      s ≤ fcseLoop l t fuel s e ∧ fcseLoop l t fuel s e < e ∧
        tsAt l (fcseLoop l t fuel s e) ≤ t ∧
        (tsAt l (fcseLoop l t fuel s e) = t ∨
          ∀ j, fcseLoop l t fuel s e < j → j < l.length → t < tsAt l j) := by
  intro fuel
  induction fuel with
  | zero =>
    intro s e hf hse _ _ _
    omega
  | succ fuel ih =>
    intro s e hf hse hel hts hend
    by_cases h1 : 1 < e - s
    case neg =>
      have heq : fcseLoop l t (fuel + 1) s e = s := by
        simp [fcseLoop, h1]
      rw [heq]
      refine ⟨le_refl s, hse, hts, Or.inr ?_⟩
      intro j hj hjl
      exact hend j (by omega) hjl
    case pos =>
      have hmidlt : s + (e - s) / 2 < e := by omega
      have hmidgt : s < s + (e - s) / 2 := by omega
      have hmidlen : s + (e - s) / 2 < l.length := Nat.lt_of_lt_of_le hmidlt hel
      obtain ⟨⟨tm, vm⟩, hem⟩ : ∃ em, l[s + (e - s) / 2]? = some em :=
        ⟨_, List.getElem?_eq_getElem hmidlen⟩
      have htm : tsAt l (s + (e - s) / 2) = tm := tsAt_eq hem
      have heq : fcseLoop l t (fuel + 1) s e =
          (if t < tm then fcseLoop l t fuel s (s + (e - s) / 2)
           else if t = tm then s + (e - s) / 2
           else fcseLoop l t fuel (s + (e - s) / 2) e) := by
        rw [fcseLoop_succ, if_pos h1, hem]
      by_cases hlt : t < tm
      · rw [heq, if_pos hlt]
        have hend2 : ∀ j, s + (e - s) / 2 ≤ j → j < l.length → t < tsAt l j := by
          intro j hj hjl
          calc t < tm := hlt
            _ = tsAt l (s + (e - s) / 2) := htm.symm
            _ ≤ tsAt l j := tsAt_mono hs hj hjl
        have hres := ih s (s + (e - s) / 2) (by omega) hmidgt (le_of_lt hmidlen) hts hend2
        exact ⟨hres.1, lt_trans hres.2.1 hmidlt, hres.2.2.1, hres.2.2.2⟩
      · by_cases heqt : t = tm
        · rw [heq, if_neg hlt, if_pos heqt]
          exact ⟨le_of_lt hmidgt, hmidlt, by rw [htm]; exact le_of_eq heqt.symm,
            Or.inl (htm.trans heqt.symm)⟩
        · rw [heq, if_neg hlt, if_neg heqt]
          have hmidle : tsAt l (s + (e - s) / 2) ≤ t := by
            rw [htm]
            exact le_of_lt (lt_of_le_of_ne (le_of_not_lt hlt) fun h => heqt h.symm)
          have hres := ih (s + (e - s) / 2) e (by omega) hmidlt hel hmidle hend
          exact ⟨le_trans (le_of_lt hmidgt) hres.1, hres.2.1, hres.2.2.1, hres.2.2.2⟩

theorem fcse_nil {α : Type} (t : ℚ) :
    find_closest_smaller_equal ([] : List (Entry α)) t = none := rfl

theorem fcse_lt_head {α : Type} (a : Entry α) (rest : List (Entry α)) {t : ℚ}
    (ht : t < a.1) : find_closest_smaller_equal (a :: rest) t = none := by
  obtain ⟨t0, v0⟩ := a
  rw [find_closest_smaller_equal, if_pos ht]

theorem fcse_ge_head {α : Type} (a : Entry α) (rest : List (Entry α)) {t : ℚ}
    (ht : ¬ t < a.1) :
    find_closest_smaller_equal (a :: rest) t =
      ((a :: rest)[fcseLoop (a :: rest) t (a :: rest).length 0 (a :: rest).length]?).map
        (fun e => (fcseLoop (a :: rest) t (a :: rest).length 0 (a :: rest).length, e)) := by
  obtain ⟨t0, v0⟩ := a
  rw [find_closest_smaller_equal, if_neg ht]

/-- What a successful `find_closest_smaller_equal` guarantees on a sorted
list: the returned index is in range and holds the returned entry, that
entry's timestamp is `≤ t`, and either the timestamp equals `t` (an exact
binary-search hit, not necessarily the rightmost duplicate) or every entry to
the right is strictly later than `t`. -/
theorem fcse_eq_some_spec {α : Type} {l : List (Entry α)} (hs : SortedByTime l)
    {t : ℚ} {idx : Nat} {e : Entry α}
    (h : find_closest_smaller_equal l t = some (idx, e)) :
    idx < l.length ∧ l[idx]? = some e ∧ e.1 ≤ t ∧
      (e.1 = t ∨ ∀ j, idx < j → j < l.length → t < tsAt l j) := by
  match l, h with
  | (t0, v0) :: rest, h =>
    by_cases ht : t < t0
    · rw [find_closest_smaller_equal, if_pos ht] at h
      exact absurd h (by simp)
    · rw [fcse_ge_head (t0, v0) rest ht] at h
      have hts0 : tsAt ((t0, v0) :: rest) 0 ≤ t := by
        rw [tsAt_cons_zero]
        exact le_of_not_lt ht
      have hspec := fcseLoop_spec hs t ((t0, v0) :: rest).length 0
        ((t0, v0) :: rest).length (le_refl _) (by simp) (le_refl _) hts0
        (fun j hj hjl => absurd (Nat.lt_of_lt_of_le hjl hj) (lt_irrefl j))
      obtain ⟨-, hlt, hle, hdisj⟩ := hspec
      obtain ⟨e2, he2⟩ : ∃ e2,
          ((t0, v0) :: rest)[fcseLoop ((t0, v0) :: rest) t ((t0, v0) :: rest).length 0
            ((t0, v0) :: rest).length]? = some e2 :=
        ⟨_, List.getElem?_eq_getElem hlt⟩
      rw [he2] at h
      simp only [Option.map_some'] at h
      obtain ⟨rfl, rfl⟩ : fcseLoop ((t0, v0) :: rest) t ((t0, v0) :: rest).length 0
          ((t0, v0) :: rest).length = idx ∧ e2 = e := by
        constructor
        · exact congrArg Prod.fst (Option.some.inj h)
        · exact congrArg Prod.snd (Option.some.inj h)
      rw [tsAt_eq he2] at hle hdisj
      exact ⟨hlt, he2, hle, hdisj⟩

/-- On a sorted list, the search returns a result once the query is at or
past the first timestamp. -/
theorem fcse_isSome {α : Type} {l : List (Entry α)} (hs : SortedByTime l) {t : ℚ}
    (hne : l ≠ []) (hfirst : tsAt l 0 ≤ t) :
    ∃ idx e, find_closest_smaller_equal l t = some (idx, e) := by
  match l with
  | a :: rest =>
    have ht : ¬ t < a.1 := by
      rw [tsAt_cons_zero] at hfirst
      exact not_lt_of_le hfirst
    rw [fcse_ge_head a rest ht]
    have hspec := fcseLoop_spec hs t (a :: rest).length 0 (a :: rest).length
      (le_refl _) (by simp) (le_refl _) hfirst
      (fun j hj hjl => absurd (Nat.lt_of_lt_of_le hjl hj) (lt_irrefl j))
    obtain ⟨e2, he2⟩ : ∃ e2,
        (a :: rest)[fcseLoop (a :: rest) t (a :: rest).length 0 (a :: rest).length]?
          = some e2 :=
      ⟨_, List.getElem?_eq_getElem hspec.2.1⟩
    rw [he2]
    exact ⟨_, e2, rfl⟩

/-- Inserting at a position whose left neighbours are at or before `x` and
whose right neighbours are at or after `x` keeps the list sorted. -/
theorem sortedInsertAt {α : Type} (x : Entry α) :
    ∀ (l : List (Entry α)) (i : Nat), SortedByTime l → i ≤ l.length →
      (∀ j, j < i → tsAt l j ≤ x.1) →
      (∀ j, i ≤ j → j < l.length → x.1 ≤ tsAt l j) →
      SortedByTime (l.take i ++ x :: l.drop i)
  | l, 0, hs, _, _, hafter => by
    simp only [List.take_zero, List.drop_zero, List.nil_append]
    refine List.pairwise_cons.mpr ⟨?_, hs⟩
    intro b hb
    obtain ⟨n, hn, rfl⟩ := List.mem_iff_getElem.mp hb
    have h := hafter n (Nat.zero_le n) hn
    rwa [tsAt_eq (List.getElem?_eq_getElem hn)] at h
  | [], i + 1, _, hi, _, _ => by
    simp at hi
  | a :: l, i + 1, hs, hi, hbefore, hafter => by
    simp only [List.take_succ_cons, List.drop_succ_cons, List.cons_append]
    obtain ⟨hhead, hs2⟩ := List.pairwise_cons.mp hs
    refine List.pairwise_cons.mpr ⟨?_, ?_⟩
    · intro b hb
      rcases List.mem_append.mp hb with hb | hb
      · exact hhead b ((List.take_sublist i l).subset hb)
      · rcases List.mem_cons.mp hb with rfl | hb
        · have h0 := hbefore 0 (Nat.succ_pos i)
          rwa [tsAt_cons_zero] at h0
        · exact hhead b ((List.drop_sublist i l).subset hb)
    · refine sortedInsertAt x l i hs2 (by simpa using hi) ?_ ?_
      · intro j hj
        have h := hbefore (j + 1) (Nat.succ_lt_succ hj)
        rwa [tsAt_cons_succ] at h
      · intro j hj hjl
        have h := hafter (j + 1) (Nat.succ_le_succ hj)
          (by simpa using Nat.succ_lt_succ hjl)
        rwa [tsAt_cons_succ] at h

theorem getLast_of_getElem? {α : Type} {l : List α} {e : α} (hne : l ≠ [])
    (h : l[l.length - 1]? = some e) : l.getLast hne = e := by
  have h2 := (List.getLast?_eq_getElem? l).trans h
  rw [List.getLast?_eq_getLast_of_ne_nil hne] at h2
  exact Option.some.inj h2

theorem flt_cons {α : Type} (a : Entry α) (rest : List (Entry α)) (t : ℚ) :
    find_lerp_tuple (a :: rest) t =
      (match find_closest_smaller_equal (a :: rest) t with
       | none => some (0, a, a)
       | some (idx0, (t0, e0)) =>
         if idx0 = min (idx0 + 1) ((a :: rest).length - 1) then
           some (0, (t0, e0), (t0, e0))
         else
           match (a :: rest)[min (idx0 + 1) ((a :: rest).length - 1)]? with
           | none => some (0, (t0, e0), (t0, e0))
           | some (t1, e1) =>
             some ((if t1 - t0 = 0 then 0 else (t - t0) / (t1 - t0)),
               (t0, e0), (t1, e1))) := rfl

theorem flt_cons_none {α : Type} {a : Entry α} {rest : List (Entry α)} {t : ℚ}
    (h : find_closest_smaller_equal (a :: rest) t = none) :
    find_lerp_tuple (a :: rest) t = some (0, a, a) := by
  rw [flt_cons, h]

theorem flt_cons_some {α : Type} {a : Entry α} {rest : List (Entry α)} {t : ℚ}
    {idx : Nat} {t0 : ℚ} {v0 : α}
    (h : find_closest_smaller_equal (a :: rest) t = some (idx, (t0, v0))) :
    find_lerp_tuple (a :: rest) t =
      (if idx = min (idx + 1) ((a :: rest).length - 1) then
        some (0, (t0, v0), (t0, v0))
      else
        match (a :: rest)[min (idx + 1) ((a :: rest).length - 1)]? with
        | none => some (0, (t0, v0), (t0, v0))
        | some (t1, e1) =>
          some ((if t1 - t0 = 0 then 0 else (t - t0) / (t1 - t0)),
            (t0, v0), (t1, e1))) := by
  rw [flt_cons, h]

theorem flt_cons_some_mid {α : Type} {a : Entry α} {rest : List (Entry α)} {t : ℚ}
    {idx : Nat} {t0 t1 : ℚ} {v0 v1 : α}
    (h : find_closest_smaller_equal (a :: rest) t = some (idx, (t0, v0)))
    (hne : ¬ idx = min (idx + 1) ((a :: rest).length - 1))
    (h1 : (a :: rest)[min (idx + 1) ((a :: rest).length - 1)]? = some (t1, v1)) :
    find_lerp_tuple (a :: rest) t =
      some ((if t1 - t0 = 0 then 0 else (t - t0) / (t1 - t0)),
        (t0, v0), (t1, v1)) := by
  rw [flt_cons_some h, if_neg hne, h1]

/-! ## Claim C5 -/

/-- C5 counterexample: inserting a fourth entry with timestamp `5` into the
sequence `[(5,1), (5,2), (5,3)]` (itself built by successive inserts) places
it at index 2, between the existing equal-timestamp entries, not after all of
them at index 3 as the claim ("immediately after the rightmost existing entry
whose timestamp is <= the new timestamp") requires: the binary search's exact
match returns the middle duplicate. -/
theorem C5_counterexample :
    SL.insert [((5 : ℚ), (1 : ℤ)), (5, 2), (5, 3)] (5, 4)
        = [(5, 1), (5, 2), (5, 4), (5, 3)]
    ∧ SL.insert [((5 : ℚ), (1 : ℤ)), (5, 2), (5, 3)] (5, 4)
        ≠ [(5, 1), (5, 2), (5, 3), (5, 4)] := by
  refine ⟨rfl, fun h => ?_⟩
  have h2 : ([((5 : ℚ), (1 : ℤ)), (5, 2), (5, 4), (5, 3)] : List (Entry ℤ))
      = [(5, 1), (5, 2), (5, 3), (5, 4)] := h
  simp at h2

/-- C5 (amended): `insert` places the new entry at a position whose left
neighbour (when one exists) has timestamp `<=` the new timestamp, at index 0
when every existing timestamp is strictly larger, and the list stays sorted
ascending by timestamp; but when existing entries share the new entry's
timestamp the new entry may land between them (the binary search returns an
exact match that need not be the rightmost duplicate), not after all of
them. -/
theorem C5_amended {α : Type} (l : List (Entry α)) (hs : SortedByTime l)
    (x : Entry α) :
    SortedByTime (SL.insert l x)
    ∧ ((∀ e ∈ l, x.1 < e.1) → SL.insert l x = x :: l)
    ∧ (∃ i, i ≤ l.length ∧ SL.insert l x = l.take i ++ x :: l.drop i
        ∧ (i = 0 ∨ (0 < i ∧ tsAt l (i - 1) ≤ x.1))) := by
  rcases hfc : find_closest_smaller_equal l x.1 with - | ⟨idx, e⟩
  · have hins : SL.insert l x = x :: l := by
      rw [SL.insert, hfc]
    have hall : ∀ b ∈ l, x.1 ≤ b.1 := by
      match l with
      | [] =>
        intro b hb
        cases hb
      | a :: rest =>
        intro b hb
        by_cases hx : x.1 < a.1
        · rcases List.mem_cons.mp hb with rfl | hb
          · exact le_of_lt hx
          · exact le_of_lt (lt_of_lt_of_le hx ((List.pairwise_cons.mp hs).1 b hb))
        · have hfirst : tsAt (a :: rest) 0 ≤ x.1 := by
            rw [tsAt_cons_zero]
            exact le_of_not_lt hx
          obtain ⟨idx, e, hsome⟩ := fcse_isSome hs (by simp) hfirst
          rw [hfc] at hsome
          cases hsome
    refine ⟨?_, fun _ => hins, ⟨0, Nat.zero_le _, by simpa using hins, Or.inl rfl⟩⟩
    rw [hins]
    exact List.pairwise_cons.mpr ⟨hall, hs⟩
  · obtain ⟨hlen, hget, hle, hdisj⟩ := fcse_eq_some_spec hs hfc
    have hins : SL.insert l x = l.take (idx + 1) ++ x :: l.drop (idx + 1) := by
      rw [SL.insert, hfc]
      exact rfl
    have hbefore : ∀ j, j < idx + 1 → tsAt l j ≤ x.1 := by
      intro j hj
      calc tsAt l j ≤ tsAt l idx := tsAt_mono hs (by omega) hlen
        _ = e.1 := tsAt_eq hget
        _ ≤ x.1 := hle
    have hafter : ∀ j, idx + 1 ≤ j → j < l.length → x.1 ≤ tsAt l j := by
      intro j hj hjl
      rcases hdisj with heq | hright
      · calc x.1 = e.1 := heq.symm
          _ = tsAt l idx := (tsAt_eq hget).symm
          _ ≤ tsAt l j := tsAt_mono hs (by omega) hjl
      · exact le_of_lt (hright j (by omega) hjl)
    refine ⟨?_, ?_, ⟨idx + 1, by omega, hins,
      Or.inr ⟨Nat.succ_pos idx, by simpa using hbefore idx (by omega)⟩⟩⟩
    · rw [hins]
      exact sortedInsertAt x l (idx + 1) hs (by omega) hbefore hafter
    · intro hlt
      exact absurd hle (not_le_of_lt (hlt e (List.getElem?_mem hget)))

/-- Witness for C5 (amended) at the concrete sorted sequence
`[(1, 1), (3, 2)]`, inserting `(2, 5)`. -/
theorem C5_amended_witness :
    SortedByTime [((1 : ℚ), (1 : ℤ)), (3, 2)]
    ∧ (SortedByTime (SL.insert [((1 : ℚ), (1 : ℤ)), (3, 2)] (2, 5))
      ∧ ((∀ e ∈ [((1 : ℚ), (1 : ℤ)), (3, 2)], (2, (5 : ℤ)).1 < e.1) →
          SL.insert [((1 : ℚ), (1 : ℤ)), (3, 2)] (2, 5)
            = (2, 5) :: [((1 : ℚ), (1 : ℤ)), (3, 2)])
      ∧ (∃ i, i ≤ ([((1 : ℚ), (1 : ℤ)), (3, 2)] : List (Entry ℤ)).length
          ∧ SL.insert [((1 : ℚ), (1 : ℤ)), (3, 2)] (2, 5)
              = List.take i [((1 : ℚ), (1 : ℤ)), (3, 2)]
                ++ (2, 5) :: List.drop i [((1 : ℚ), (1 : ℤ)), (3, 2)]
          ∧ (i = 0 ∨ (0 < i ∧ tsAt [((1 : ℚ), (1 : ℤ)), (3, 2)] (i - 1) ≤ (2, (5 : ℤ)).1)))) :=
  have hs : SortedByTime [((1 : ℚ), (1 : ℤ)), (3, 2)] := by
    norm_num [List.pairwise_cons]
  ⟨hs, C5_amended [((1 : ℚ), (1 : ℤ)), (3, 2)] hs (2, 5)⟩

/-! ## Claim C2 -/

theorem flt_at_last {α : Type} {a : Entry α} {rest : List (Entry α)} {t : ℚ}
    {t0 : ℚ} {v0 : α}
    (h : find_closest_smaller_equal (a :: rest) t
        = some ((a :: rest).length - 1, (t0, v0))) :
    find_lerp_tuple (a :: rest) t = some (0, (t0, v0), (t0, v0)) := by
  rw [flt_cons_some h, if_pos (by omega)]

/-- C2 counterexample: on the strictly sorted sequence
`[(1,10), (5,20), (9,30)]`, querying the exact stored timestamp `5` returns
weight `0` with lower slot `(5,20)` but upper slot `(9,30)` — the entry at
the next index — not both slots equal to the matched entry as the claim
states. -/
theorem C2_counterexample :
    find_lerp_tuple [((1 : ℚ), (10 : ℤ)), (5, 20), (9, 30)] 5
        = some (0, (5, 20), (9, 30))
    ∧ find_lerp_tuple [((1 : ℚ), (10 : ℤ)), (5, 20), (9, 30)] 5
        ≠ some (0, (5, 20), (5, 20)) := by
  have h : find_lerp_tuple [((1 : ℚ), (10 : ℤ)), (5, 20), (9, 30)] 5
      = some (0, (5, 20), (9, 30)) := by
    norm_num [find_lerp_tuple, find_closest_smaller_equal, fcseLoop]
  refine ⟨h, fun h2 => ?_⟩
  rw [h] at h2
  norm_num [Prod.ext_iff] at h2

/-- C2 (amended): for a sorted sequence, `find_lerp_tuple` obeys:
(1) a single-entry sequence gives weight 0 with both slots that entry;
(2) a query before the first entry gives weight 0 with both slots the first
entry; (3) a query strictly after the last timestamp gives weight 0 with
both slots the last entry; (4) with pairwise distinct timestamps the same
holds already for a query at or after the last timestamp; (5) a query at the
exact timestamp of a stored entry gives weight 0 and a lower slot carrying
that timestamp — but the upper slot is the entry at the following index, so
the two slots coincide only when the match lands on the last index. -/
theorem C2_amended {α : Type} (l : List (Entry α)) (hs : SortedByTime l) (t : ℚ) :
    (∀ e : Entry α, find_lerp_tuple [e] t = some (0, e, e))
    ∧ (∀ a rest, l = a :: rest → t < a.1 → find_lerp_tuple l t = some (0, a, a))
    ∧ (∀ hne : l ≠ [], tsAt l (l.length - 1) < t →
        find_lerp_tuple l t = some (0, l.getLast hne, l.getLast hne))
    ∧ (StrictlySortedByTime l → ∀ hne : l ≠ [], tsAt l (l.length - 1) ≤ t →
        find_lerp_tuple l t = some (0, l.getLast hne, l.getLast hne))
    ∧ (∀ e ∈ l, e.1 = t → ∃ e0 e1 : Entry α,
        find_lerp_tuple l t = some (0, e0, e1) ∧ e0.1 = t) := by
  refine ⟨?_, ?_, ?_, ?_, ?_⟩
  · -- single-entry sequence
    intro e
    obtain ⟨te, ve⟩ := e
    by_cases h : t < te
    · exact flt_cons_none (fcse_lt_head (te, ve) [] h)
    · have hsome : find_closest_smaller_equal [(te, ve)] t = some (0, (te, ve)) := by
        rw [fcse_ge_head (te, ve) [] h]
        exact rfl
      rw [flt_cons_some hsome, if_pos (by simp)]
  · -- query before the first entry
    intro a rest hl hlt
    subst hl
    exact flt_cons_none (fcse_lt_head a rest hlt)
  · -- query strictly after the last timestamp
    intro hne hlast
    have hpos : 0 < l.length := List.length_pos.mpr hne
    have hfirst : tsAt l 0 ≤ t :=
      le_of_lt (lt_of_le_of_lt (tsAt_mono hs (Nat.zero_le _) (by omega)) hlast)
    obtain ⟨idx, e, hsome⟩ := fcse_isSome hs hne hfirst
    obtain ⟨hlen, hget, hle, hdisj⟩ := fcse_eq_some_spec hs hsome
    have hidx : idx = l.length - 1 := by
      rcases hdisj with heq | hright
      · exfalso
        have h1 : tsAt l idx ≤ tsAt l (l.length - 1) := tsAt_mono hs (by omega) (by omega)
        rw [tsAt_eq hget, heq] at h1
        exact absurd (lt_of_le_of_lt h1 hlast) (lt_irrefl t)
      · by_contra hne2
        have h2 := hright (l.length - 1) (by omega) (by omega)
        exact absurd (lt_trans h2 hlast) (lt_irrefl t)
    rw [hidx] at hsome hget
    obtain ⟨a, rest, rfl⟩ : ∃ a rest, l = a :: rest := by
      match l, hne with
      | a :: rest, _ => exact ⟨a, rest, rfl⟩
    obtain ⟨t0, v0⟩ := e
    have hglast : (a :: rest).getLast hne = (t0, v0) := getLast_of_getElem? hne hget
    rw [hglast]
    exact flt_at_last hsome
  · -- distinct timestamps: query at or after the last timestamp
    intro hstrict hne hlast
    have hpos : 0 < l.length := List.length_pos.mpr hne
    have hfirst : tsAt l 0 ≤ t :=
      le_trans (tsAt_mono hs (Nat.zero_le _) (by omega)) hlast
    obtain ⟨idx, e, hsome⟩ := fcse_isSome hs hne hfirst
    obtain ⟨hlen, hget, hle, hdisj⟩ := fcse_eq_some_spec hs hsome
    have hidx : idx = l.length - 1 := by
      by_contra hne2
      have hidxlt : idx < l.length - 1 := by omega
      rcases hdisj with heq | hright
      · have h1 : tsAt l idx < tsAt l (l.length - 1) :=
          tsAt_strict_mono hstrict hidxlt (by omega)
        rw [tsAt_eq hget, heq] at h1
        exact absurd (lt_of_lt_of_le h1 hlast) (lt_irrefl t)
      · have h2 := hright (l.length - 1) (by omega) (by omega)
        exact absurd (lt_of_lt_of_le h2 hlast) (lt_irrefl t)
    rw [hidx] at hsome hget
    obtain ⟨a, rest, rfl⟩ : ∃ a rest, l = a :: rest := by
      match l, hne with
      | a :: rest, _ => exact ⟨a, rest, rfl⟩
    obtain ⟨t0, v0⟩ := e
    have hglast : (a :: rest).getLast hne = (t0, v0) := getLast_of_getElem? hne hget
    rw [hglast]
    exact flt_at_last hsome
  · -- query at an exact stored timestamp
    intro e he het
    obtain ⟨n, hn, rfl⟩ := List.mem_iff_getElem.mp he
    have hq : l[n]? = some l[n] := List.getElem?_eq_getElem hn
    have hne : l ≠ [] := by
      intro h
      subst h
      simp at hn
    have hfirst : tsAt l 0 ≤ t := by
      have h1 := tsAt_mono hs (Nat.zero_le n) hn
      rwa [tsAt_eq hq, het] at h1
    obtain ⟨idx, e2, hsome⟩ := fcse_isSome hs hne hfirst
    obtain ⟨hlen, hget, hle, hdisj⟩ := fcse_eq_some_spec hs hsome
    have ht0 : e2.1 = t := by
      rcases hdisj with heq | hright
      · exact heq
      · by_cases hcmp : n ≤ idx
        · have h1 : tsAt l n ≤ tsAt l idx := tsAt_mono hs hcmp hlen
          rw [tsAt_eq hget, tsAt_eq hq, het] at h1
          exact le_antisymm hle h1
        · have h2 := hright n (by omega) hn
          rw [tsAt_eq hq, het] at h2
          exact absurd h2 (lt_irrefl t)
    obtain ⟨a, rest, rfl⟩ : ∃ a rest, l = a :: rest := by
      match l, hne with
      | a :: rest, _ => exact ⟨a, rest, rfl⟩
    obtain ⟨t0, v0⟩ := e2
    by_cases hb : idx = min (idx + 1) ((a :: rest).length - 1)
    · rw [flt_cons_some hsome, if_pos hb]
      exact ⟨(t0, v0), (t0, v0), rfl, ht0⟩
    · have hidx1len : min (idx + 1) ((a :: rest).length - 1) < (a :: rest).length := by
        have := List.length_pos.mpr hne
        omega
      obtain ⟨⟨t1, w1⟩, h1⟩ :
          ∃ p, (a :: rest)[min (idx + 1) ((a :: rest).length - 1)]? = some p :=
        ⟨_, List.getElem?_eq_getElem hidx1len⟩
      refine ⟨(t0, v0), (t1, w1), ?_, ht0⟩
      rw [flt_cons_some_mid hsome hb h1]
      have ht0q : t0 = t := ht0
      rw [ht0q]
      by_cases hz : t1 - t = 0
      · rw [if_pos hz]
      · rw [if_neg hz, sub_self, zero_div]

/-- Witness for C2 (amended) on the concrete sorted sequence
`[(1,10), (5,20), (9,30)]`: conjunct (3) evaluated at query 12 yields weight
0 with both slots the last entry. -/
theorem C2_amended_witness :
    SortedByTime [((1 : ℚ), (10 : ℤ)), (5, 20), (9, 30)]
    ∧ find_lerp_tuple [((1 : ℚ), (10 : ℤ)), (5, 20), (9, 30)] 12
        = some (0, (9, 30), (9, 30)) :=
  have hs : SortedByTime [((1 : ℚ), (10 : ℤ)), (5, 20), (9, 30)] := by
    norm_num [List.pairwise_cons]
  ⟨hs, by
    have h := (C2_amended [((1 : ℚ), (10 : ℤ)), (5, 20), (9, 30)] hs 12).2.2.1
      (by simp) (by norm_num [tsAt])
    simpa using h⟩

/-! ## Proofs about the feature store -/

instance : Inhabited Feature := ⟨⟨-1, "Feature", [], false⟩⟩

theorem set_getElem?_self {β : Type} :
    ∀ {l : List β} {i : Nat} {a : β}, l[i]? = some a → l.set i a = l
  | [], i, a, h => by simp at h
  | x :: l, 0, a, h => by
    simp at h
    simp [List.set, h]
  | x :: l, i + 1, a, h => by
    simp at h
    simp [List.set, set_getElem?_self h]

theorem set_property_eq {s : FeaturesAPI} {i : Nat} {f : Feature}
    (p : String) (v : PyVal) (hget : s.feature_list[i]? = some f) :
    s.set_property i p v =
      (match f.property_change p v with
       | none => none
       | some (f2, pc) =>
         let s2 : FeaturesAPI := { s with feature_list := s.feature_list.set i f2 }
         match pc with
         | none => some s2
         | some payload =>
           some { s2 with events := s2.events ++ f2.register_property_change s2 payload }) := by
  rw [FeaturesAPI.set_property, hget]

theorem property_change_eq {f : Feature} {p : String} {cur : PyVal} (v : PyVal)
    (hattr : f.getattr p = some cur) :
    f.property_change p v =
      (match propertyDiffers cur v with
       | none => none
       | some false => some (f, none)
       | some true => some (f.setattr p v, some (p, cur, v))) := by
  rw [Feature.property_change, hattr]

theorem set_property_of_pc_none {s : FeaturesAPI} {i : Nat} {f : Feature}
    {p : String} {v : PyVal} (hget : s.feature_list[i]? = some f)
    (hpc : f.property_change p v = some (f, none)) :
    s.set_property i p v
      = some { s with feature_list := s.feature_list.set i f } := by
  rw [set_property_eq p v hget, hpc]

theorem set_property_of_pc_some {s : FeaturesAPI} {i : Nat} {f f2 : Feature}
    {p : String} {v : PyVal} {payload : String × PyVal × PyVal}
    (hget : s.feature_list[i]? = some f)
    (hpc : f.property_change p v = some (f2, some payload)) :
    s.set_property i p v
      = some { s with
               feature_list := s.feature_list.set i f2,
               events := s.events ++ f2.register_property_change
                 { s with feature_list := s.feature_list.set i f2 } payload } := by
  rw [set_property_eq p v hget, hpc]

/-- A no-change assignment through the funnel leaves the store untouched
and emits nothing. -/
theorem set_property_no_change {s : FeaturesAPI} {i : Nat} {f : Feature}
    {p : String} {v cur : PyVal} (hget : s.feature_list[i]? = some f)
    (hattr : f.getattr p = some cur)
    (hdiff : propertyDiffers cur v = some false) :
    s.set_property i p v = some s := by
  have hpc : f.property_change p v = some (f, none) := by
    rw [property_change_eq v hattr, hdiff]
  rw [set_property_of_pc_none hget hpc, set_getElem?_self hget]

/-- A changing assignment through the funnel writes the field and emits
exactly one PropertyChange event carrying the property name, old value and
new value. -/
theorem set_property_change {s : FeaturesAPI} {i : Nat} {f : Feature}
    {p : String} {v cur : PyVal} (hget : s.feature_list[i]? = some f)
    (hbound : f.api_bound = true) (hattr : f.getattr p = some cur)
    (hdiff : propertyDiffers cur v = some true) :
    s.set_property i p v = some
      { s with feature_list := s.feature_list.set i (f.setattr p v),
               events := s.events ++ [⟨FeatureChange.PROPERTY_CHANGE.2, f.id,
                 EventPayload.propertyP f.feature_type f.id
                   FeatureChange.PROPERTY_CHANGE p cur v⟩] } := by
  have hpc : f.property_change p v = some (f.setattr p v, some (p, cur, v)) := by
    rw [property_change_eq v hattr, hdiff]
  rw [set_property_of_pc_some hget hpc]
  have hi : i < s.feature_list.length := (List.getElem?_eq_some_iff.mp hget).1
  have hset : (s.feature_list.set i (f.setattr p v))[i]? = some (f.setattr p v) :=
    List.getElem?_set_self hi
  have hmem : f.setattr p v ∈ s.feature_list.set i (f.setattr p v) :=
    List.getElem?_mem hset
  have hbound2 : (f.setattr p v).api_bound = true := hbound
  have hfind : (({ s with feature_list := s.feature_list.set i (f.setattr p v) }
      : FeaturesAPI).get_feature_by_id f.id).isSome := by
    rw [FeaturesAPI.get_feature_by_id, List.find?_isSome]
    exact ⟨f.setattr p v, hmem, by simp [Feature.setattr]⟩
  obtain ⟨g, hg⟩ := Option.isSome_iff_exists.mp hfind
  have hreg : (f.setattr p v).register_property_change
      { s with feature_list := s.feature_list.set i (f.setattr p v) } (p, cur, v)
      = [⟨FeatureChange.PROPERTY_CHANGE.2, f.id,
          EventPayload.propertyP f.feature_type f.id
            FeatureChange.PROPERTY_CHANGE p cur v⟩] := by
    rw [Feature.register_property_change, if_pos hbound2,
      FeaturesAPI.register_change]
    rw [show (f.setattr p v).id = f.id from rfl,
      show (f.setattr p v).feature_type = f.feature_type from rfl, hg]
    rfl
  rw [hreg]

/-! ## Claim C8 -/

/-- C8: for every store state, `clear()` empties the ordered feature list
(`get_num_features` becomes 0) and pushes exactly one store-scoped Clear
event with sender 0; the count of Remove events on the stream is unchanged
(no per-feature Remove events are emitted). -/
theorem C8_clear (s : FeaturesAPI) :
    (s.clear).get_num_features = 0
    ∧ (s.clear).events = s.events ++ [⟨FeatureChange.FEATURE_CLEAR.2, 0,
        EventPayload.clearP FeatureChange.FEATURE_CLEAR⟩]
    ∧ (s.clear).events.countP
        (fun ev => ev.event_type == FeatureChange.FEATURE_CLEAR.2)
      = s.events.countP
          (fun ev => ev.event_type == FeatureChange.FEATURE_CLEAR.2) + 1
    ∧ (s.clear).events.countP
        (fun ev => ev.event_type == FeatureChange.FEATURE_REMOVE.2)
      = s.events.countP
          (fun ev => ev.event_type == FeatureChange.FEATURE_REMOVE.2) := by
  refine ⟨rfl, rfl, ?_, ?_⟩ <;>
    simp [FeaturesAPI.clear, FeaturesAPI.get_num_features, List.countP_append,
      List.countP_cons, FeatureChange.FEATURE_CLEAR, FeatureChange.FEATURE_REMOVE]

/-! ## Claim C1 -/

/-- C1 counterexample: a feature created by `create_feature` but not yet
added to the store (here: a bound feature with id 1 and the base fields,
while the store's feature list is empty) has its `name` field mutated by the
setter, but the PropertyChange event is suppressed by `register_change`'s
listing check — zero events are delivered, not exactly one. -/
theorem C1_counterexample :
    set_property_unlisted ⟨2, [], []⟩ ⟨1, "Image", featureBaseFields, true⟩
        "name" (.pyStr "x")
      = some (⟨2, [], []⟩,
          ⟨1, "Image", [("name", .pyStr "x"), ("active", .pyBool true),
            ("time_coverage", .pyNone), ("meta", .pyDict [])], true⟩) := by
  rfl

/-- C1 (amended): for a feature currently listed in its store (at position
`i`, bound to the store), assigning through the property funnel is a strict
no-op (same store, no event) when the array-aware comparison reports no
change, and otherwise writes the field and appends exactly one
PropertyChange event whose payload carries the property name, the old value
and the new value. For an unlisted or unbound feature the field still
mutates but the event is suppressed. -/
theorem C1_amended (s : FeaturesAPI) (i : Nat) (f : Feature) (p : String)
    (v cur : PyVal) (hget : s.feature_list[i]? = some f)
    (hbound : f.api_bound = true) (hattr : f.getattr p = some cur) :
    (propertyDiffers cur v = some false → s.set_property i p v = some s)
    ∧ (propertyDiffers cur v = some true →
        s.set_property i p v = some
          { s with feature_list := s.feature_list.set i (f.setattr p v),
                   events := s.events ++ [⟨FeatureChange.PROPERTY_CHANGE.2, f.id,
                     EventPayload.propertyP f.feature_type f.id
                       FeatureChange.PROPERTY_CHANGE p cur v⟩] }) :=
  ⟨fun hdiff => set_property_no_change hget hattr hdiff,
   fun hdiff => set_property_change hget hbound hattr hdiff⟩

/-- Witness for C1 (amended): in a one-feature store, re-assigning `name`
to its current value `"unnamed"` leaves the store unchanged, and assigning
`"x"` mutates the field and appends exactly one PropertyChange event. -/
theorem C1_amended_witness :
    FeaturesAPI.set_property ⟨2, [⟨1, "Feature", featureBaseFields, true⟩], []⟩
        0 "name" (.pyStr "unnamed")
      = some ⟨2, [⟨1, "Feature", featureBaseFields, true⟩], []⟩
    ∧ FeaturesAPI.set_property ⟨2, [⟨1, "Feature", featureBaseFields, true⟩], []⟩
        0 "name" (.pyStr "x")
      = some ⟨2, [⟨1, "Feature",
          [("name", .pyStr "x"), ("active", .pyBool true),
           ("time_coverage", .pyNone), ("meta", .pyDict [])], true⟩],
          [⟨5, 1, EventPayload.propertyP "Feature" 1 ("PropertyChange", 5)
            "name" (.pyStr "unnamed") (.pyStr "x")⟩]⟩ := by
  constructor
  · exact (C1_amended ⟨2, [⟨1, "Feature", featureBaseFields, true⟩], []⟩ 0
      ⟨1, "Feature", featureBaseFields, true⟩ "name" (.pyStr "unnamed")
      (.pyStr "unnamed") rfl rfl rfl).1 (by rfl)
  · have h := (C1_amended ⟨2, [⟨1, "Feature", featureBaseFields, true⟩], []⟩ 0
      ⟨1, "Feature", featureBaseFields, true⟩ "name" (.pyStr "x")
      (.pyStr "unnamed") rfl rfl rfl).2 (by rfl)
    rw [h]
    rfl

/-! ## Claim C3 -/

theorem tc_extend_eq {s : FeaturesAPI} {i : Nat} {f : Feature}
    (start endt : ℚ) (hget : s.feature_list[i]? = some f) :
    s.time_coverage_extend_to_include i start endt =
      (match f.getattr "time_coverage" with
       | some .pyNone =>
         some { s with feature_list :=
           s.feature_list.set i (f.setattr "time_coverage" (.pyInterval start endt)) }
       | some (.pyInterval a b) =>
         s.set_property i "time_coverage"
           (.pyInterval (if start > a then a else start)
             (if endt < b then b else endt))
       | _ => none) := by
  rw [FeaturesAPI.time_coverage_extend_to_include, hget]

theorem tc_extend_of_none {s : FeaturesAPI} {i : Nat} {f : Feature}
    {start endt : ℚ} (hget : s.feature_list[i]? = some f)
    (hattr : f.getattr "time_coverage" = some .pyNone) :
    s.time_coverage_extend_to_include i start endt
      = some { s with feature_list :=
          s.feature_list.set i (f.setattr "time_coverage" (.pyInterval start endt)) } := by
  rw [tc_extend_eq start endt hget, hattr]

theorem tc_extend_of_interval {s : FeaturesAPI} {i : Nat} {f : Feature}
    {start endt a b : ℚ} (hget : s.feature_list[i]? = some f)
    (hattr : f.getattr "time_coverage" = some (.pyInterval a b)) :
    s.time_coverage_extend_to_include i start endt
      = s.set_property i "time_coverage"
          (.pyInterval (if start > a then a else start)
            (if endt < b then b else endt)) := by
  rw [tc_extend_eq start endt hget, hattr]

theorem widen_start_eq_min (start a : ℚ) :
    (if start > a then a else start) = min start a := by
  split_ifs with h
  · exact (min_eq_right (le_of_lt h)).symm
  · exact (min_eq_left (le_of_not_lt h)).symm

theorem widen_end_eq_max (endt b : ℚ) :
    (if endt < b then b else endt) = max endt b := by
  split_ifs with h
  · exact (max_eq_right (le_of_lt h)).symm
  · exact (max_eq_left (le_of_not_lt h)).symm

theorem propertyDiffers_interval (a b u w : ℚ) :
    propertyDiffers (.pyInterval a b) (.pyInterval u w)
      = some (!((a == u) && (b == w))) := by
  rw [propertyDiffers, if_neg (by simp [PyVal.tag])]
  · rfl
  · intro a1 b1 h
    cases h

theorem interval_differs_of_ne {a b u w : ℚ} (hne : (u, w) ≠ (a, b)) :
    propertyDiffers (.pyInterval a b) (.pyInterval u w) = some true := by
  have h : ¬ (a = u ∧ b = w) := by
    rintro ⟨rfl, rfl⟩
    exact hne rfl
  rw [propertyDiffers_interval]
  rcases not_and_or.mp h with h1 | h1 <;> simp [beq_iff_eq, h1]

theorem interval_differs_self (a b : ℚ) :
    propertyDiffers (.pyInterval a b) (.pyInterval a b) = some false := by
  rw [propertyDiffers_interval]
  simp

/-- C3 counterexample: on a listed, bound feature whose `time_coverage` is
still `None`, `time_coverage_extend_to_include(3, 7)` writes the attribute
directly — the resulting store holds coverage `(3, 7)` but its event stream
is still empty, so no PropertyChange event was emitted, contradicting
"exactly one PropertyChange event per call". -/
theorem C3_counterexample :
    FeaturesAPI.time_coverage_extend_to_include
        ⟨2, [⟨1, "Image", featureBaseFields, true⟩], []⟩ 0 3 7
      = some ⟨2, [⟨1, "Image",
          [("name", .pyStr "unnamed"), ("active", .pyBool true),
           ("time_coverage", .pyInterval 3 7), ("meta", .pyDict [])], true⟩], []⟩ := by
  rfl

/-- C3 (amended): `time_coverage_extend_to_include(start, end)` on a listed,
bound feature sets `time_coverage` to the union bound
`(min(start, existing.start), max(end, existing.end))`, or to
`(start, end)` directly when previously unset. Exactly one PropertyChange
event is emitted only in the set case when the union differs from the
existing interval; the previously-unset case bypasses the setter and emits
no event, and a call whose union equals the existing interval is a complete
no-op with no event. -/
theorem C3_amended (s : FeaturesAPI) (i : Nat) (f : Feature)
    (start endt a b : ℚ) (hget : s.feature_list[i]? = some f)
    (hbound : f.api_bound = true) :
    (f.getattr "time_coverage" = some .pyNone →
      s.time_coverage_extend_to_include i start endt
        = some { s with feature_list :=
            s.feature_list.set i (f.setattr "time_coverage" (.pyInterval start endt)) })
    ∧ (f.getattr "time_coverage" = some (.pyInterval a b) →
        (min start a, max endt b) ≠ (a, b) →
        s.time_coverage_extend_to_include i start endt
          = some { s with
              feature_list := s.feature_list.set i
                (f.setattr "time_coverage"
                  (.pyInterval (min start a) (max endt b))),
              events := s.events ++ [⟨FeatureChange.PROPERTY_CHANGE.2, f.id,
                EventPayload.propertyP f.feature_type f.id
                  FeatureChange.PROPERTY_CHANGE "time_coverage"
                  (.pyInterval a b)
                  (.pyInterval (min start a) (max endt b))⟩] })
    ∧ (f.getattr "time_coverage" = some (.pyInterval a b) →
        min start a = a → max endt b = b →
        s.time_coverage_extend_to_include i start endt = some s) := by
  refine ⟨fun hattr => tc_extend_of_none hget hattr, ?_, ?_⟩
  · intro hattr hne
    rw [tc_extend_of_interval hget hattr, widen_start_eq_min, widen_end_eq_max]
    exact set_property_change hget hbound hattr (interval_differs_of_ne hne)
  · intro hattr hmin hmax
    rw [tc_extend_of_interval hget hattr, widen_start_eq_min, widen_end_eq_max,
      hmin, hmax]
    exact set_property_no_change hget hattr (interval_differs_self a b)

/-- Witness for C3 (amended) on a one-feature store whose coverage is
`(4, 6)`: extending to include `(3, 7)` widens to `(3, 7)` with one event;
extending to include `(5, 5)` is a no-op. The unset branch is exercised by
the base-fields feature. -/
theorem C3_amended_witness :
    FeaturesAPI.time_coverage_extend_to_include
        ⟨2, [⟨1, "Image", [("time_coverage", PyVal.pyInterval 4 6)], true⟩], []⟩ 0 3 7
      = some ⟨2, [⟨1, "Image", [("time_coverage", PyVal.pyInterval 3 7)], true⟩],
          [⟨5, 1, EventPayload.propertyP "Image" 1 ("PropertyChange", 5)
            "time_coverage" (PyVal.pyInterval 4 6) (PyVal.pyInterval 3 7)⟩]⟩
    ∧ FeaturesAPI.time_coverage_extend_to_include
        ⟨2, [⟨1, "Image", [("time_coverage", PyVal.pyInterval 4 6)], true⟩], []⟩ 0 5 5
      = some ⟨2, [⟨1, "Image", [("time_coverage", PyVal.pyInterval 4 6)], true⟩], []⟩
    ∧ FeaturesAPI.time_coverage_extend_to_include
        ⟨2, [⟨1, "Image", featureBaseFields, true⟩], []⟩ 0 3 7
      = some ⟨2, [⟨1, "Image",
          [("name", .pyStr "unnamed"), ("active", .pyBool true),
           ("time_coverage", .pyInterval 3 7), ("meta", .pyDict [])], true⟩], []⟩ := by
  refine ⟨?_, ?_, ?_⟩
  · have h := (C3_amended ⟨2, [⟨1, "Image", [("time_coverage", PyVal.pyInterval 4 6)], true⟩], []⟩
      0 ⟨1, "Image", [("time_coverage", PyVal.pyInterval 4 6)], true⟩ 3 7 4 6 rfl rfl).2.1
      rfl (by norm_num [Prod.ext_iff])
    norm_num [Feature.setattr, FeatureChange.PROPERTY_CHANGE, min_def, max_def] at h
    exact h
  · have h := (C3_amended ⟨2, [⟨1, "Image", [("time_coverage", PyVal.pyInterval 4 6)], true⟩], []⟩
      0 ⟨1, "Image", [("time_coverage", PyVal.pyInterval 4 6)], true⟩ 5 5 4 6 rfl rfl).2.2
      rfl (by norm_num) (by norm_num)
    exact h
  · exact (C3_amended ⟨2, [⟨1, "Image", featureBaseFields, true⟩], []⟩
      0 ⟨1, "Image", featureBaseFields, true⟩ 3 7 0 0 rfl rfl).1 rfl

/-! ## Claim C6 -/

/-- A length-`n` duplicate-free list of indices `< n` contains every index
`< n`. -/
theorem mem_of_perm_list {p : List Nat} {n : Nat} (hlen : p.length = n)
    (hnd : p.Nodup) (hmem : ∀ x ∈ p, x < n) : ∀ k, k < n → k ∈ p := by
  have hsub : p.toFinset ⊆ Finset.range n := fun x hx =>
    Finset.mem_range.mpr (hmem x (List.mem_toFinset.mp hx))
  have hcard : (Finset.range n).card ≤ p.toFinset.card := by
    rw [List.toFinset_card_of_nodup hnd, hlen, Finset.card_range]
  have heq : p.toFinset = Finset.range n :=
    Finset.eq_of_subset_of_card_le hsub hcard
  intro k hk
  have hk2 : k ∈ p.toFinset := heq ▸ Finset.mem_range.mpr hk
  exact List.mem_toFinset.mp hk2

theorem pyGetInt_ofNat {l : List Feature} {x : Nat} (hx : x < l.length) :
    pyGetInt l (Int.ofNat x) = some (l.getD x default) := by
  have h1 : ¬ (Int.ofNat x < 0) := by
    simp only [Int.ofNat_eq_coe]
    omega
  have h2 : (0 : Int) ≤ Int.ofNat x ∧ Int.ofNat x < (l.length : Int) := by
    simp only [Int.ofNat_eq_coe]
    omega
  simp only [pyGetInt, if_neg h1, if_pos h2]
  rw [show (Int.ofNat x).toNat = x from rfl]
  rw [List.getD_eq_getElem l default hx, List.getElem?_eq_getElem hx]

theorem mapM_pyGetInt_eq (l : List Feature) :
    ∀ p : List Nat, (∀ x ∈ p, x < l.length) →
      (p.map Int.ofNat).mapM (pyGetInt l)
        = some (p.map (fun x => l.getD x default))
  | [], _ => rfl
  | x :: p, h => by
    have hx : x < l.length := h x (List.mem_cons_self x p)
    have hrest := mapM_pyGetInt_eq l p (fun y hy => h y (List.mem_cons_of_mem x hy))
    rw [List.map_cons, List.mapM_cons, pyGetInt_ofNat hx, hrest]
    rfl

theorem reorder_plist_mapM_some {s : FeaturesAPI} {q : List Int}
    {permuted : List Feature}
    (hlen2 : ¬ (q.length ≠ s.feature_list.length))
    (hdedup : ¬ (q.dedup.length ≠ q.length))
    (hmapm : q.mapM (pyGetInt s.feature_list) = some permuted) :
    s.reorder_features (.plist q) =
      (if permuted ≠ s.feature_list then
        .ok { s with feature_list := permuted,
                     events := s.events ++ [⟨FeatureChange.FEATURE_REORDER.2, 0,
                       EventPayload.reorderP FeatureChange.FEATURE_REORDER q⟩] }
      else .ok s) := by
  rw [FeaturesAPI.reorder_features, if_neg hlen2, if_neg hdedup, hmapm]

/-- A validated permutation-list reorder returns normally with the permuted
feature list `new[i] = old[p[i]]` (whether or not an event is emitted). -/
theorem reorder_valid_eq {s : FeaturesAPI} {p : List Nat}
    (hlen : p.length = s.feature_list.length) (hnd : p.Nodup)
    (hmem : ∀ x ∈ p, x < s.feature_list.length) :
    ∃ s2, s.reorder_features (.plist (p.map Int.ofNat)) = .ok s2
      ∧ s2.feature_list = p.map (fun x => s.feature_list.getD x default) := by
  have hnd2 : (p.map Int.ofNat).Nodup :=
    hnd.map (fun a b h => Int.ofNat.inj h)
  have hlen2 : ¬ ((p.map Int.ofNat).length ≠ s.feature_list.length) := by
    simp [hlen]
  have hdedup : ¬ ((p.map Int.ofNat).dedup.length ≠ (p.map Int.ofNat).length) := by
    rw [List.dedup_eq_self.mpr hnd2]
    exact fun h => h rfl
  rw [reorder_plist_mapM_some hlen2 hdedup (mapM_pyGetInt_eq s.feature_list p hmem)]
  by_cases hne : p.map (fun x => s.feature_list.getD x default) ≠ s.feature_list
  · rw [if_pos hne]
    exact ⟨_, rfl, rfl⟩
  · rw [if_neg hne]
    exact ⟨s, rfl, (not_not.mp hne).symm⟩

theorem invPerm_length (p : List Nat) : (invPerm p).length = p.length := by
  simp [invPerm]

theorem invPerm_nodup {p : List Nat} (hnd : p.Nodup)
    (hmem : ∀ x ∈ p, x < p.length) : (invPerm p).Nodup := by
  refine List.Nodup.map_on ?_ (List.nodup_range _)
  intro j1 h1 j2 h2 heq
  rw [List.mem_range] at h1 h2
  have hm1 : j1 ∈ p := mem_of_perm_list rfl hnd hmem j1 h1
  have hm2 : j2 ∈ p := mem_of_perm_list rfl hnd hmem j2 h2
  have g1 := List.indexOf_get (List.indexOf_lt_length.mpr hm1)
  have g2 := List.indexOf_get (List.indexOf_lt_length.mpr hm2)
  rw [← g1, ← g2]
  congr 1
  exact Fin.ext heq

/-- Applying `p` and then `invPerm p` to a list restores it. -/
theorem invPerm_roundtrip {l : List Feature} {p : List Nat}
    (hlen : p.length = l.length) (hnd : p.Nodup)
    (hmem : ∀ x ∈ p, x < l.length) :
    (invPerm p).map
      (fun x => (p.map (fun y => l.getD y default)).getD x default) = l := by
  apply List.ext_getElem
  · simp [invPerm, hlen]
  · intro k h1 h2
    have hkp : k ∈ p := mem_of_perm_list hlen hnd hmem k h2
    have hidx : p.indexOf k < p.length := List.indexOf_lt_length.mpr hkp
    simp only [List.getElem_map, invPerm, List.getElem_range]
    rw [List.getD_eq_getElem _ default (by simpa using hidx)]
    rw [List.getElem_map]
    rw [List.getElem_indexOf hidx]
    exact List.getD_eq_getElem l default h2

theorem findIdx?_beq_getElem {β : Type} [DecidableEq β] :
    ∀ {l : List β}, l.Nodup → ∀ {k : Nat}, (hk : k < l.length) →
      l.findIdx? (fun g => g == l[k]) = some k
  | [], _, k, hk => by simp at hk
  | a :: l, hnd, 0, hk => by
    simp [List.findIdx?_cons]
  | a :: l, hnd, k + 1, hk => by
    obtain ⟨hna, hnd2⟩ := List.pairwise_cons.mp hnd
    have hk2 : k < l.length := by simpa using hk
    have hgm : (a :: l)[k + 1] = l[k] := by simp
    have hne : (a == (a :: l)[k + 1]) = false := by
      rw [hgm, beq_eq_false_iff_ne]
      exact fun heq => (hna _ (List.getElem_mem hk2)) heq
    rw [List.findIdx?_cons, hne]
    simp only [Bool.false_eq_true, if_false, List.findIdx?_start_succ]
    rw [hgm, findIdx?_beq_getElem hnd2 hk2]
    rfl

theorem get_feature_pos_getD {s : FeaturesAPI} (hnd : s.feature_list.Nodup)
    {k : Nat} (hk : k < s.feature_list.length) :
    s.get_feature_pos (s.feature_list.getD k default) = some k := by
  rw [FeaturesAPI.get_feature_pos, List.getD_eq_getElem _ default hk]
  exact findIdx?_beq_getElem hnd hk

/-- C6: on a store of pairwise-distinct features (Python list entries are
distinct objects), reordering by a valid permutation list `p`
(`new[i] = old[p[i]]`) and then by its inverse restores the original
feature order, and `get_feature_pos` again reports each feature's original
index. -/
theorem C6_reorder_roundtrip (s : FeaturesAPI) (p : List Nat)
    (hlen : p.length = s.feature_list.length) (hnd : p.Nodup)
    (hmem : ∀ x ∈ p, x < s.feature_list.length)
    (hfnd : s.feature_list.Nodup) :
    ∃ s2 s3, s.reorder_features (.plist (p.map Int.ofNat)) = .ok s2
      ∧ s2.reorder_features (.plist ((invPerm p).map Int.ofNat)) = .ok s3
      ∧ s3.get_features = s.get_features
      ∧ ∀ k, k < s.feature_list.length →
          s3.get_feature_pos (s.feature_list.getD k default) = some k := by
  obtain ⟨s2, h2, hl2⟩ := reorder_valid_eq hlen hnd hmem
  have hmem2 : ∀ x ∈ p, x < p.length := fun x hx => hlen ▸ hmem x hx
  have hlen2 : (invPerm p).length = s2.feature_list.length := by
    rw [hl2]
    simp [invPerm]
  have hnd2 : (invPerm p).Nodup := invPerm_nodup hnd hmem2
  have hmem3 : ∀ x ∈ invPerm p, x < s2.feature_list.length := by
    intro x hx
    rw [hl2, List.length_map]
    obtain ⟨j, hj, rfl⟩ := List.mem_map.mp hx
    exact List.indexOf_lt_length.mpr
      (mem_of_perm_list rfl hnd hmem2 j (List.mem_range.mp hj))
  obtain ⟨s3, h3, hl3⟩ := reorder_valid_eq hlen2 hnd2 hmem3
  have hfinal : s3.feature_list = s.feature_list := by
    rw [hl3, hl2]
    exact invPerm_roundtrip hlen hnd hmem
  refine ⟨s2, s3, h2, h3, ?_, ?_⟩
  · rw [FeaturesAPI.get_features, FeaturesAPI.get_features, hfinal]
  · intro k hk
    have hnd3 : s3.feature_list.Nodup := by
      rw [hfinal]
      exact hfnd
    have hk3 : k < s3.feature_list.length := by
      rw [hfinal]
      exact hk
    have h := get_feature_pos_getD hnd3 hk3
    rw [hfinal] at h
    exact h

/-- Witness for C6 on a two-feature store with `p = [1, 0]`. -/
theorem C6_witness :
    ∃ s2 s3,
      FeaturesAPI.reorder_features
          ⟨3, [⟨1, "Feature", [], true⟩, ⟨2, "Feature", [], true⟩], []⟩
          (.plist ([1, 0].map Int.ofNat)) = .ok s2
      ∧ s2.reorder_features (.plist ((invPerm [1, 0]).map Int.ofNat)) = .ok s3
      ∧ s3.get_features = FeaturesAPI.get_features
          ⟨3, [⟨1, "Feature", [], true⟩, ⟨2, "Feature", [], true⟩], []⟩
      ∧ ∀ k, k < (FeaturesAPI.feature_list
          ⟨3, [⟨1, "Feature", [], true⟩, ⟨2, "Feature", [], true⟩], []⟩).length →
          s3.get_feature_pos ((FeaturesAPI.feature_list
            ⟨3, [⟨1, "Feature", [], true⟩, ⟨2, "Feature", [], true⟩], []⟩).getD
              k default) = some k :=
  C6_reorder_roundtrip
    ⟨3, [⟨1, "Feature", [], true⟩, ⟨2, "Feature", [], true⟩], []⟩
    [1, 0] (by decide) (by decide) (by decide) (by decide)

/-! ## Claim C7 -/

/-- C7: at the failing input — a position-mapping dict naming a feature that
is not in the store's list (here: an empty store and a dict `{f: 0}`) — the
`ValueError` from `list.index` is caught, but evaluating the handler's
f-string raises `NameError` (the variable is misspelled `pemutation` at
features_api.py:138), so an exception escapes to the caller instead of the
logged, exception-free abort the claim describes. The store is untouched
(only local copies were modified) and no event is emitted, but the call does
not return normally. -/
theorem C7_dict_raises :
    FeaturesAPI.reorder_features ⟨1, [], []⟩
        (.pdict [(⟨5, "Feature", featureBaseFields, true⟩, 0)])
      = .raised "NameError" := by
  rfl

/-! ## Claims C4, C9, C10 (TimeManager) -/

/-- C4: with a nonzero rate before and after the change, assigning a new
value to `utc_start_time`, `utc_end_time`, or `utc_per_second` preserves the
derived `utc_time` (the same UTC instant is recovered because the playback
time is recomputed under the new mapping) and pushes exactly one change
event of the corresponding type. -/
theorem C4_setters_preserve_utc_time (tm : TimeManager)
    (hper : tm.utc_per_second ≠ 0) (vs ve vp : ℚ)
    (hvs : vs ≠ tm.utc_start_time) (hve : ve ≠ tm.utc_end_time)
    (hvp : vp ≠ tm.utc_per_second) (hvp0 : vp ≠ 0) :
    ((tm.set_utc_start_time (.dt true vs)).utc_time = tm.utc_time
      ∧ (tm.set_utc_start_time (.dt true vs)).utc_events
          = tm.utc_events ++ [UTC_START_TIME_CHANGED])
    ∧ ((tm.set_utc_end_time (.dt true ve)).utc_time = tm.utc_time
      ∧ (tm.set_utc_end_time (.dt true ve)).utc_events
          = tm.utc_events ++ [UTC_END_TIME_CHANGED])
    ∧ ((tm.set_utc_per_second vp).utc_time = tm.utc_time
      ∧ (tm.set_utc_per_second vp).utc_events
          = tm.utc_events ++ [UTC_PER_SECOND_CHANGED]) := by
  refine ⟨⟨?_, ?_⟩, ⟨?_, ?_⟩, ⟨?_, ?_⟩⟩
  · simp only [TimeManager.set_utc_start_time, if_pos (Ne.symm hvs),
      TimeManager.sync, TimeManager.utc_time, TimeManager.playback_to_utc_time,
      TimeManager.utc_to_playback_time, TimeManager.playback_time, if_neg hper]
    field_simp
  · simp [TimeManager.set_utc_start_time, if_pos (Ne.symm hvs), TimeManager.sync]
  · simp only [TimeManager.set_utc_end_time, if_pos (Ne.symm hve),
      TimeManager.sync, TimeManager.utc_time, TimeManager.playback_to_utc_time,
      TimeManager.utc_to_playback_time, TimeManager.playback_time, if_neg hper]
    field_simp
  · simp [TimeManager.set_utc_end_time, if_pos (Ne.symm hve), TimeManager.sync]
  · simp only [TimeManager.set_utc_per_second, if_pos (Ne.symm hvp),
      TimeManager.sync, TimeManager.utc_time, TimeManager.playback_to_utc_time,
      TimeManager.utc_to_playback_time, TimeManager.playback_time, if_neg hvp0]
    field_simp
  · simp [TimeManager.set_utc_per_second, if_pos (Ne.symm hvp), TimeManager.sync]

/-- Witness for C4 at the concrete initial state: shrinking the start by an
hour, extending the end, and doubling the rate each preserve `utc_time` and
push one typed event. -/
theorem C4_witness :
    ((TimeManager.init.set_utc_start_time (.dt true 1759273200)).utc_time
        = TimeManager.init.utc_time
      ∧ (TimeManager.init.set_utc_start_time (.dt true 1759273200)).utc_events
        = TimeManager.init.utc_events ++ [UTC_START_TIME_CHANGED])
    ∧ ((TimeManager.init.set_utc_end_time (.dt true 1759363200)).utc_time
        = TimeManager.init.utc_time
      ∧ (TimeManager.init.set_utc_end_time (.dt true 1759363200)).utc_events
        = TimeManager.init.utc_events ++ [UTC_END_TIME_CHANGED])
    ∧ ((TimeManager.init.set_utc_per_second 20).utc_time
        = TimeManager.init.utc_time
      ∧ (TimeManager.init.set_utc_per_second 20).utc_events
        = TimeManager.init.utc_events ++ [UTC_PER_SECOND_CHANGED]) :=
  C4_setters_preserve_utc_time TimeManager.init
    (by norm_num [TimeManager.init, TimeManager.sync])
    1759273200 1759363200 20
    (by norm_num [TimeManager.init, TimeManager.sync])
    (by norm_num [TimeManager.init, TimeManager.sync])
    (by norm_num [TimeManager.init, TimeManager.sync])
    (by norm_num)

/-- C9: from the initial state (`utc_start = 2025-10-01T00:00:00Z`,
`utc_end = 2025-10-01T23:59:00Z`, `utc_per_second = 10 s`; Unix seconds
1759276800 and 1759363140), setting `utc_time` to `utc_start + 1h`
(1759280400) writes `playback_time = 360` and reading `utc_time` back
yields the same UTC instant, with one current-time-changed event. -/
theorem C9_scenario :
    (TimeManager.init.set_utc_time 1759280400).timeline_current_time = 360
    ∧ (TimeManager.init.set_utc_time 1759280400).utc_time = 1759280400
    ∧ (TimeManager.init.set_utc_time 1759280400).utc_events
        = [UTC_CURRENT_TIME_CHANGED] := by
  refine ⟨?_, ?_, ?_⟩ <;>
    norm_num [TimeManager.init, TimeManager.sync, TimeManager.set_utc_time,
      TimeManager.utc_time, TimeManager.utc_to_playback_time,
      TimeManager.playback_to_utc_time, TimeManager.playback_time]

/-- C10: passing anything whose type is not exactly `datetime.datetime` (a
string, `None`, a number, or an instance of a proper datetime subclass) to
the `utc_start_time` or `utc_end_time` setter is a complete silent no-op:
the state — bounds, rate, timeline mapping, and event stream — is returned
unchanged and no exception is raised (the model is total). -/
theorem C10_setter_type_guard (tm : TimeManager) (arg : PyDateTimeArg)
    (h : ∀ v : ℚ, arg ≠ .dt true v) :
    tm.set_utc_start_time arg = tm ∧ tm.set_utc_end_time arg = tm := by
  cases arg with
  | dt exact v =>
    cases exact
    · exact ⟨rfl, rfl⟩
    · exact absurd rfl (h v)
  | other w => exact ⟨rfl, rfl⟩

/-- Witness for C10: a `None` argument and a datetime-subclass instance
both leave the initial state untouched. -/
theorem C10_witness :
    (TimeManager.init.set_utc_start_time (.other "None") = TimeManager.init
      ∧ TimeManager.init.set_utc_end_time (.other "None") = TimeManager.init)
    ∧ (TimeManager.init.set_utc_start_time (.dt false 1759280400) = TimeManager.init
      ∧ TimeManager.init.set_utc_end_time (.dt false 1759280400) = TimeManager.init) :=
  ⟨C10_setter_type_guard TimeManager.init (.other "None")
      (fun v h => PyDateTimeArg.noConfusion h),
   C10_setter_type_guard TimeManager.init (.dt false 1759280400)
      (fun v h => by cases h)⟩

end OrbitalCore
